import Mathlib

/-!
Verification of the triehash crate's trie-root construction.

Shallow embedding conventions:
* Byte strings (keys, values) are `List Nat`.
* The abstract `TrieStream` encoder is modelled freely: a stream is the list
  of encoder calls (`StreamOp`) that `build_trie` performs on it; the final
  digest of `trie_root` is an arbitrary function of that list, so equality of
  op lists entails equality of digests for every encoder/hasher instantiation.
* `BTreeMap` collection (sort + last-value-wins deduplication) is modelled by
  folding an overwrite-insert into a key-sorted association list.
* The panicking slice index `k[cursor]` of the branch loop is modelled by
  `List.getD` with the sentinel `16`, which matches no branch slot; theorem
  `build_trie_branch_index_in_bounds` shows the access is in range under the
  sortedness precondition established by `trie_root`.
-/

namespace Triehash

/-- Keys and values are byte sequences, modelled as lists of naturals. -/
abbrev Bytes := List Nat

/-- Embedding of `shared_prefix_len`: position of the first mismatch of the
zipped sequences, or the shorter length when one is a prefix of the other. -/
def shared_prefix_len : List Nat → List Nat → Nat
  | a :: as, b :: bs => if a = b then shared_prefix_len as bs + 1 else 0
  | _, _ => 0

/-- One abstract `TrieStream` encoder call.  `appendSubstream` carries the
finalized op list of the fresh encoder built by the trampoline. -/
inductive StreamOp where
  | appendEmptyData : StreamOp
  | appendLeaf : List Nat → List Nat → StreamOp
  | appendExtension : List Nat → StreamOp
  | beginBranch : StreamOp
  | appendValue : List Nat → StreamOp
  | appendSubstream : List StreamOp → StreamOp

/-- Embedding of the fold in `build_trie` that computes the nibble count
shared between the first key and every other pair of the slice. -/
def shared_nibble_count (key : List Nat) (input : List (Bytes × Bytes)) : Nat :=
  (input.drop 1).foldl (fun acc p => min (shared_prefix_len key p.1) acc) key.length

theorem foldl_min_le_init (f : Bytes × Bytes → Nat) :
    ∀ (l : List (Bytes × Bytes)) (a : Nat),
      l.foldl (fun acc p => min (f p) acc) a ≤ a := by
  intro l
  induction l with
  | nil => intro a; exact Nat.le_refl a
  | cons p ps ih =>
    intro a
    exact Nat.le_trans (ih (min (f p) a)) (Nat.min_le_right _ _)

theorem shared_nibble_count_le (key : List Nat) (input : List (Bytes × Bytes)) :
    shared_nibble_count key input ≤ key.length :=
  foldl_min_le_init _ _ _

theorem takeWhile_length_eq_forall {α : Type} (p : α → Bool) :
    ∀ l : List α, (l.takeWhile p).length = l.length → ∀ x ∈ l, p x := by
  intro l
  induction l with
  | nil => intro _ x hx; cases hx
  | cons a t ih =>
    intro hlen x hx
    by_cases hpa : p a
    · rw [List.takeWhile_cons_of_pos hpa] at hlen
      simp only [List.length_cons, Nat.add_right_cancel_iff] at hlen
      rcases List.mem_cons.mp hx with rfl | hx
      · exact hpa
      · exact ih hlen x hx
    · rw [List.takeWhile_cons_of_neg hpa] at hlen
      simp at hlen

/-- Key fact behind termination and the depth bound of the branch loop: a
nonempty run either is a strict sub-slice, or covers the whole input, in which
case the cursor is still inside the first key. -/
theorem run_slice_measure (input : List (Bytes × Bytes)) (cursor i b : Nat)
    (h16 : i < 16) (hb : b < input.length)
    (hc : 0 < ((input.drop b).takeWhile (fun p => p.1.getD cursor 16 == i)).length) :
    ((input.drop b).take
        ((input.drop b).takeWhile (fun p => p.1.getD cursor 16 == i)).length).length
        < input.length
    ∨ (((input.drop b).take
          ((input.drop b).takeWhile (fun p => p.1.getD cursor 16 == i)).length) = input
        ∧ cursor < (input.headD ([], [])).1.length) := by
  set p : Bytes × Bytes → Bool := fun p => p.1.getD cursor 16 == i with hp
  have hcnt_le : ((input.drop b).takeWhile p).length ≤ input.length - b := by
    have := (List.takeWhile_sublist (l := input.drop b) p).length_le
    rwa [List.length_drop] at this
  have hslice : ((input.drop b).take ((input.drop b).takeWhile p).length).length
      = ((input.drop b).takeWhile p).length := by
    rw [List.length_take, List.length_drop]
    omega
  rw [hslice]
  by_cases hlt : ((input.drop b).takeWhile p).length < input.length
  · exact Or.inl hlt
  · have hcnt : ((input.drop b).takeWhile p).length = input.length := by omega
    have hb0 : b = 0 := by omega
    subst hb0
    rw [List.drop_zero] at hcnt ⊢
    have hall : ∀ x ∈ input, p x := takeWhile_length_eq_forall p input hcnt
    have htake : input.take (input.takeWhile p).length = input := by
      rw [hcnt, List.take_length]
    refine Or.inr ⟨htake, ?_⟩
    cases input with
    | nil => simp at hb
    | cons hd tl =>
      have hhd : p hd := hall hd (List.mem_cons_self hd tl)
      rw [hp] at hhd
      simp only [beq_iff_eq] at hhd
      simp only [List.headD_cons]
      by_contra hcur
      push_neg at hcur
      rw [List.getD_eq_default _ _ hcur] at hhd
      omega

mutual

/-- Embedding of `build_trie`: the list of encoder calls the Rust function
performs on its output stream, by input length (empty / leaf / extension or
branch). -/
def build_trie : List (Bytes × Bytes) → Nat → List StreamOp
  | [], _ => [.appendEmptyData]
  | [(k, v)], cursor => [.appendLeaf (k.drop cursor) v]
  | (k, v) :: p2 :: rest, cursor =>
    let shared := shared_nibble_count k ((k, v) :: p2 :: rest)
    if h : shared > cursor then
      .appendExtension ((k.drop cursor).take (shared - cursor)) ::
        build_trie_trampoline ((k, v) :: p2 :: rest) shared
    else
      .beginBranch ::
        (branch_slots ((k, v) :: p2 :: rest) cursor 0
            (if cursor = k.length then 1 else 0) ++
          [if cursor = k.length then .appendValue v else .appendEmptyData])
termination_by input cursor => (input.length, (input.headD ([], [])).1.length + 1 - cursor, 18)
decreasing_by
  · apply Prod.Lex.right
    apply Prod.Lex.left
    have hle : shared_nibble_count k ((k, v) :: p2 :: rest) ≤ k.length :=
      shared_nibble_count_le _ _
    simp only [List.headD_cons]
    omega
  · apply Prod.Lex.right
    apply Prod.Lex.right
    omega

/-- Embedding of the 16-slot branch loop of `build_trie`: `i` is the loop
nibble, `b` the running `begin` index into the sorted slice. -/
def branch_slots (input : List (Bytes × Bytes)) (cursor i b : Nat) : List StreamOp :=
  if _h16 : 16 ≤ i then []
  else if hb : input.length ≤ b then
    List.replicate (16 - i) .appendEmptyData
  else
    let cnt := ((input.drop b).takeWhile (fun p => p.1.getD cursor 16 == i)).length
    (if hc : cnt = 0 then [.appendEmptyData]
      else build_trie_trampoline ((input.drop b).take cnt) (cursor + 1)) ++
      branch_slots input cursor (i + 1) (b + cnt)
termination_by (input.length, (input.headD ([], [])).1.length + 1 - cursor, 16 - i)
decreasing_by
  · rcases run_slice_measure input cursor i b (by omega) (by omega) (by omega) with
      hlt | ⟨heq, hcur⟩
    · exact Prod.Lex.left _ _ hlt
    · rw [heq]
      apply Prod.Lex.right
      apply Prod.Lex.left
      omega
  · apply Prod.Lex.right
    apply Prod.Lex.right
    omega

/-- Embedding of `build_trie_trampoline`: build the child into a fresh stream
and splice the finalized substream into the parent. -/
def build_trie_trampoline (input : List (Bytes × Bytes)) (cursor : Nat) : List StreamOp :=
  [.appendSubstream (build_trie input cursor)]
termination_by (input.length, (input.headD ([], [])).1.length + 1 - cursor, 19)
decreasing_by
  apply Prod.Lex.right
  apply Prod.Lex.right
  omega

end

/-- One overwrite-insert into a key-sorted association list: the model of
inserting into the `BTreeMap` (an existing key's value is overwritten). -/
def mapInsert : List (Bytes × Bytes) → Bytes × Bytes → List (Bytes × Bytes)
  | [], p => [p]
  | q :: qs, p =>
    if p.1 = q.1 then p :: qs
    else if p.1 < q.1 then p :: q :: qs
    else q :: mapInsert qs p

/-- Model of `input.into_iter().collect::<BTreeMap<_, _>>()` followed by
in-order iteration: fold every pair into the sorted map, last value wins. -/
def normalize (input : List (Bytes × Bytes)) : List (Bytes × Bytes) :=
  input.foldl mapInsert []

/-- Embedding of the nibble expansion of `trie_root`: each byte becomes its
high nibble followed by its low nibble. -/
def toNibbles : Bytes → List Nat
  | [] => []
  | b :: bs => b >>> 4 :: (b &&& 0x0F) :: toNibbles bs

/-- The nibble-keyed pair list handed to `build_trie`: the slice
`&nibbles[w[0]..w[1]]` built for key `i` is, as a sequence, exactly the
nibble expansion of key `i`. -/
def toNibblePairs (l : List (Bytes × Bytes)) : List (Bytes × Bytes) :=
  l.map (fun p => (toNibbles p.1, p.2))

/-- The finalized top-level stream of `trie_root` (everything before the
final hash). -/
def trie_root_stream (input : List (Bytes × Bytes)) : List StreamOp :=
  build_trie (toNibblePairs (normalize input)) 0

/-- Embedding of `trie_root`: the digest is an abstract hash of the
finalized stream, covering every `Hasher`/`TrieStream` instantiation. -/
def trie_root {D : Type} (hashOut : List StreamOp → D) (input : List (Bytes × Bytes)) : D :=
  hashOut (trie_root_stream input)

/-- Stream of `sec_trie_root`: every key is replaced by its hash before
normalization, values untouched. -/
def sec_trie_root_stream (hashKey : Bytes → Bytes) (input : List (Bytes × Bytes)) :
    List StreamOp :=
  trie_root_stream (input.map (fun p => (hashKey p.1, p.2)))

/-- Embedding of `sec_trie_root`. -/
def sec_trie_root {D : Type} (hashKey : Bytes → Bytes) (hashOut : List StreamOp → D)
    (input : List (Bytes × Bytes)) : D :=
  trie_root hashOut (input.map (fun p => (hashKey p.1, p.2)))

/-- First value stored under key `k` in an association list. -/
def alookup (k : Bytes) : List (Bytes × Bytes) → Option Bytes
  | [] => none
  | q :: qs => if q.1 = k then some q.2 else alookup k qs

/-- The sorted-map invariant: keys strictly increase along the list. -/
abbrev KeySorted (l : List (Bytes × Bytes)) : Prop :=
  l.Pairwise (fun p q => p.1 < q.1)

theorem alookup_mapInsert (s : List (Bytes × Bytes)) (p : Bytes × Bytes) (k' : Bytes) :
    alookup k' (mapInsert s p) = if k' = p.1 then some p.2 else alookup k' s := by
  obtain ⟨k, v⟩ := p
  simp only []
  induction s with
  | nil =>
    by_cases h : k' = k
    · subst h; simp [mapInsert, alookup]
    · have h' : ¬ k = k' := fun hh => h hh.symm
      simp [mapInsert, alookup, h, h']
  | cons q qs ih =>
    simp only [mapInsert]
    by_cases h1 : k = q.1
    · rw [if_pos h1]
      by_cases h : k' = k
      · subst h; simp [alookup]
      · have h' : ¬ k = k' := fun hh => h hh.symm
        have h'' : ¬ q.1 = k' := fun hh => h' (h1.trans hh)
        simp [alookup, h, h', h'']
    · rw [if_neg h1]
      by_cases h2 : (k : Bytes) < q.1
      · rw [if_pos h2]
        by_cases h : k' = k
        · subst h; simp [alookup]
        · have h' : ¬ k = k' := fun hh => h hh.symm
          simp [alookup, h, h']
      · rw [if_neg h2]
        simp only [alookup]
        by_cases h3 : q.1 = k'
        · have hne : ¬ k' = k := fun hh => h1 ((h3.trans hh).symm)
          simp [h3, hne]
        · simp [h3, ih]

theorem mem_mapInsert (s : List (Bytes × Bytes)) (p r : Bytes × Bytes)
    (h : r ∈ mapInsert s p) : r = p ∨ r ∈ s := by
  induction s with
  | nil =>
    simp only [mapInsert] at h
    rcases List.mem_cons.mp h with h | h
    · exact Or.inl h
    · cases h
  | cons q qs ih =>
    simp only [mapInsert] at h
    by_cases h1 : p.1 = q.1
    · rw [if_pos h1] at h
      rcases List.mem_cons.mp h with h | h
      · exact Or.inl h
      · exact Or.inr (List.mem_cons_of_mem q h)
    · rw [if_neg h1] at h
      by_cases h2 : p.1 < q.1
      · rw [if_pos h2] at h
        rcases List.mem_cons.mp h with h | h
        · exact Or.inl h
        · exact Or.inr h
      · rw [if_neg h2] at h
        rcases List.mem_cons.mp h with h | h
        · exact Or.inr (h ▸ List.mem_cons_self q qs)
        · rcases ih h with h | h
          · exact Or.inl h
          · exact Or.inr (List.mem_cons_of_mem q h)

theorem keySorted_mapInsert (s : List (Bytes × Bytes)) (p : Bytes × Bytes)
    (hs : KeySorted s) : KeySorted (mapInsert s p) := by
  induction s with
  | nil => simp [mapInsert, KeySorted]
  | cons q qs ih =>
    have hq : ∀ r ∈ qs, q.1 < r.1 := fun r hr => (List.pairwise_cons.mp hs).1 r hr
    have hqs : KeySorted qs := (List.pairwise_cons.mp hs).2
    simp only [mapInsert]
    by_cases h1 : p.1 = q.1
    · rw [if_pos h1]
      exact List.pairwise_cons.mpr ⟨fun r hr => h1 ▸ hq r hr, hqs⟩
    · rw [if_neg h1]
      by_cases h2 : p.1 < q.1
      · rw [if_pos h2]
        refine List.pairwise_cons.mpr ⟨?_, hs⟩
        intro r hr
        rcases List.mem_cons.mp hr with rfl | hr
        · exact h2
        · exact lt_trans h2 (hq r hr)
      · rw [if_neg h2]
        have hqp : q.1 < p.1 := by
          rcases lt_trichotomy p.1 q.1 with h | h | h
          · exact absurd h h2
          · exact absurd h h1
          · exact h
        refine List.pairwise_cons.mpr ⟨?_, ih hqs⟩
        intro r hr
        rcases mem_mapInsert qs p r hr with rfl | hr
        · exact hqp
        · exact hq r hr

theorem keySorted_normalize (input : List (Bytes × Bytes)) :
    KeySorted (normalize input) := by
  have h : ∀ (l init : List (Bytes × Bytes)), KeySorted init →
      KeySorted (l.foldl mapInsert init) := by
    intro l
    induction l with
    | nil => intro init h; exact h
    | cons p ps ih =>
      intro init h
      exact ih (mapInsert init p) (keySorted_mapInsert init p h)
  exact h input [] List.Pairwise.nil

theorem alookup_append (k : Bytes) (l₁ l₂ : List (Bytes × Bytes)) :
    alookup k (l₁ ++ l₂) = (alookup k l₁).orElse (fun _ => alookup k l₂) := by
  induction l₁ with
  | nil => simp [alookup]
  | cons q qs ih =>
    simp only [List.cons_append, alookup]
    by_cases h : q.1 = k
    · simp [h]
    · simp [h, ih]

theorem alookup_foldl_mapInsert (k : Bytes) :
    ∀ (l init : List (Bytes × Bytes)),
      alookup k (l.foldl mapInsert init)
        = (alookup k l.reverse).orElse (fun _ => alookup k init) := by
  intro l
  induction l with
  | nil => intro init; simp [alookup]
  | cons p ps ih =>
    intro init
    simp only [List.foldl_cons, List.reverse_cons]
    rw [ih (mapInsert init p), alookup_append]
    rcases hres : alookup k ps.reverse with _ | w
    · rw [alookup_mapInsert init p k]
      by_cases h : k = p.1
      · simp [alookup, Option.orElse, h]
      · have h' : ¬ p.1 = k := fun hh => h hh.symm
        simp [alookup, Option.orElse, h, h']
    · simp [Option.orElse]

theorem alookup_normalize (k : Bytes) (input : List (Bytes × Bytes)) :
    alookup k (normalize input) = alookup k input.reverse := by
  rw [normalize, alookup_foldl_mapInsert]
  rcases h : alookup k input.reverse with _ | w <;> simp [alookup, Option.orElse]

theorem alookup_eq_none (k : Bytes) (l : List (Bytes × Bytes))
    (h : ∀ r ∈ l, r.1 ≠ k) : alookup k l = none := by
  induction l with
  | nil => rfl
  | cons q qs ih =>
    simp only [alookup, if_neg (h q (List.mem_cons_self q qs))]
    exact ih (fun r hr => h r (List.mem_cons_of_mem q hr))

/-- Extensionality for sorted maps: two key-sorted association lists with the
same lookup function are equal. -/
theorem keySorted_ext : ∀ (s t : List (Bytes × Bytes)), KeySorted s → KeySorted t →
    (∀ k, alookup k s = alookup k t) → s = t := by
  intro s
  induction s with
  | nil =>
    intro t _ _ hk
    cases t with
    | nil => rfl
    | cons q qs =>
      have := hk q.1
      simp [alookup] at this
  | cons p ps ih =>
    intro t hs ht hk
    cases t with
    | nil =>
      have := hk p.1
      simp [alookup] at this
    | cons q qs =>
      have hps : KeySorted ps := (List.pairwise_cons.mp hs).2
      have hqs : KeySorted qs := (List.pairwise_cons.mp ht).2
      have hpkey : ∀ r ∈ ps, p.1 < r.1 := fun r hr => (List.pairwise_cons.mp hs).1 r hr
      have hqkey : ∀ r ∈ qs, q.1 < r.1 := fun r hr => (List.pairwise_cons.mp ht).1 r hr
      have hkey : p.1 = q.1 := by
        by_contra hne
        have h1 : alookup p.1 (p :: ps) = some p.2 := by simp [alookup]
        have h2 : alookup q.1 (q :: qs) = some q.2 := by simp [alookup]
        have hne' : ¬ q.1 = p.1 := fun hh => hne hh.symm
        have h1' : alookup p.1 qs = some p.2 := by
          have := (hk p.1).symm
          rw [h1] at this
          simpa [alookup, hne'] using this
        have h2' : alookup q.1 ps = some q.2 := by
          have := hk q.1
          rw [h2] at this
          simpa [alookup, hne] using this
        have hmem1 : q.1 < p.1 := by
          by_contra hlt
          have : alookup p.1 qs = none := by
            apply alookup_eq_none
            intro r hr heq
            have := hqkey r hr
            rw [heq] at this
            rcases lt_trichotomy p.1 q.1 with h | h | h
            · exact absurd (lt_trans this h) (lt_irrefl _)
            · exact hne h
            · exact hlt h
          rw [this] at h1'; cases h1'
        have hmem2 : p.1 < q.1 := by
          by_contra hlt
          have : alookup q.1 ps = none := by
            apply alookup_eq_none
            intro r hr heq
            have := hpkey r hr
            rw [heq] at this
            rcases lt_trichotomy q.1 p.1 with h | h | h
            · exact absurd (lt_trans this h) (lt_irrefl _)
            · exact hne h.symm
            · exact hlt h
          rw [this] at h2'; cases h2'
        exact absurd (lt_trans hmem1 hmem2) (lt_irrefl _)
      have hval : p.2 = q.2 := by
        have := hk p.1
        simp [alookup, hkey] at this
        exact this
      have htail : ∀ k, alookup k ps = alookup k qs := by
        intro k
        by_cases h : k = p.1
        · subst h
          rw [alookup_eq_none _ _ (fun r hr => ne_of_gt (hpkey r hr)),
            alookup_eq_none _ _ (fun r hr => ne_of_gt (hkey ▸ hqkey r hr))]
        · have hp' : ¬ p.1 = k := fun hh => h hh.symm
          have hq' : ¬ q.1 = k := fun hh => hp' (hkey.trans hh)
          have := hk k
          simpa [alookup, hp', hq'] using this
      have : p = q := Prod.ext hkey hval
      rw [this, ih qs hps hqs htail]

theorem build_trie_nil (cursor : Nat) :
    build_trie [] cursor = [.appendEmptyData] := by
  simp [build_trie]

theorem build_trie_single (k v : Bytes) (cursor : Nat) :
    build_trie [(k, v)] cursor = [.appendLeaf (k.drop cursor) v] := by
  simp [build_trie]

theorem build_trie_ext_case (k v : Bytes) (p2 : Bytes × Bytes) (rest : List (Bytes × Bytes))
    (cursor : Nat) (h : shared_nibble_count k ((k, v) :: p2 :: rest) > cursor) :
    build_trie ((k, v) :: p2 :: rest) cursor =
      .appendExtension ((k.drop cursor).take (shared_nibble_count k ((k, v) :: p2 :: rest) - cursor)) ::
        build_trie_trampoline ((k, v) :: p2 :: rest)
          (shared_nibble_count k ((k, v) :: p2 :: rest)) := by
  rw [build_trie]
  simp [h]

theorem build_trie_branch_case (k v : Bytes) (p2 : Bytes × Bytes) (rest : List (Bytes × Bytes))
    (cursor : Nat) (h : ¬ shared_nibble_count k ((k, v) :: p2 :: rest) > cursor) :
    build_trie ((k, v) :: p2 :: rest) cursor =
      .beginBranch ::
        (branch_slots ((k, v) :: p2 :: rest) cursor 0
            (if cursor = k.length then 1 else 0) ++
          [if cursor = k.length then .appendValue v else .appendEmptyData]) := by
  rw [build_trie]
  simp [h]

theorem branch_slots_eq_done (input : List (Bytes × Bytes)) (cursor i b : Nat)
    (h : 16 ≤ i) : branch_slots input cursor i b = [] := by
  rw [branch_slots]
  simp [h]

theorem branch_slots_eq_past_end (input : List (Bytes × Bytes)) (cursor i b : Nat)
    (h16 : i < 16) (hb : input.length ≤ b) :
    branch_slots input cursor i b = List.replicate (16 - i) .appendEmptyData := by
  rw [branch_slots]
  simp [Nat.not_le.mpr h16, hb]

theorem branch_slots_eq_step (input : List (Bytes × Bytes)) (cursor i b : Nat)
    (h16 : i < 16) (hb : b < input.length) :
    branch_slots input cursor i b =
      (if ((input.drop b).takeWhile (fun p => p.1.getD cursor 16 == i)).length = 0 then
          [.appendEmptyData]
        else
          build_trie_trampoline
            ((input.drop b).take
              ((input.drop b).takeWhile (fun p => p.1.getD cursor 16 == i)).length)
            (cursor + 1)) ++
        branch_slots input cursor (i + 1)
          (b + ((input.drop b).takeWhile (fun p => p.1.getD cursor 16 == i)).length) := by
  rw [branch_slots]
  simp only [dif_neg (by omega : ¬ (16 : Nat) ≤ i), dif_neg (Nat.not_le.mpr hb)]
  by_cases hc : ((input.drop b).takeWhile (fun p => p.1.getD cursor 16 == i)).length = 0
  · rw [dif_pos hc, if_pos hc]
  · rw [dif_neg hc, if_neg hc]

theorem foldl_min_le_mem (f : Bytes × Bytes → Nat) :
    ∀ (l : List (Bytes × Bytes)) (a : Nat) (p), p ∈ l →
      l.foldl (fun acc q => min (f q) acc) a ≤ f p := by
  intro l
  induction l with
  | nil => intro a p hp; cases hp
  | cons q qs ih =>
    intro a p hp
    rcases List.mem_cons.mp hp with rfl | hp
    · simp only [List.foldl_cons]
      exact Nat.le_trans (foldl_min_le_init f qs (min (f p) a)) (Nat.min_le_left _ _)
    · exact ih (min (f q) a) p hp

theorem foldl_min_attained (f : Bytes × Bytes → Nat) :
    ∀ (l : List (Bytes × Bytes)) (a : Nat),
      l.foldl (fun acc q => min (f q) acc) a = a
      ∨ ∃ p ∈ l, l.foldl (fun acc q => min (f q) acc) a = f p := by
  intro l
  induction l with
  | nil => intro a; exact Or.inl rfl
  | cons q qs ih =>
    intro a
    simp only [List.foldl_cons]
    rcases ih (min (f q) a) with h | ⟨p, hp, h⟩
    · by_cases hqa : f q ≤ a
      · refine Or.inr ⟨q, List.mem_cons_self q qs, ?_⟩
        rw [h]; omega
      · refine Or.inl ?_
        rw [h]; omega
    · exact Or.inr ⟨p, List.mem_cons_of_mem q hp, h⟩

theorem shared_prefix_len_le_min : ∀ a b : List Nat,
    shared_prefix_len a b ≤ min a.length b.length := by
  intro a
  induction a with
  | nil => intro b; cases b <;> simp [shared_prefix_len]
  | cons x xs ih =>
    intro b
    cases b with
    | nil => simp [shared_prefix_len]
    | cons y ys =>
      by_cases h : x = y
      · have := ih ys
        simp only [shared_prefix_len, if_pos h, List.length_cons]
        omega
      · simp [shared_prefix_len, h]

theorem shared_prefix_len_agree : ∀ (a b : List Nat) (j : Nat),
    j < shared_prefix_len a b → a[j]? = b[j]? := by
  intro a
  induction a with
  | nil => intro b j h; simp [shared_prefix_len] at h
  | cons x xs ih =>
    intro b j h
    cases b with
    | nil => simp [shared_prefix_len] at h
    | cons y ys =>
      by_cases hxy : x = y
      · rw [shared_prefix_len, if_pos hxy] at h
        cases j with
        | zero => simp [hxy]
        | succ j =>
          simp only [List.getElem?_cons_succ]
          exact ih ys j (by omega)
      · rw [shared_prefix_len, if_neg hxy] at h
        omega

theorem shared_prefix_len_mismatch : ∀ a b : List Nat,
    shared_prefix_len a b < min a.length b.length →
      a[shared_prefix_len a b]? ≠ b[shared_prefix_len a b]? := by
  intro a
  induction a with
  | nil => intro b h; simp [shared_prefix_len] at h
  | cons x xs ih =>
    intro b h
    cases b with
    | nil => simp [shared_prefix_len] at h
    | cons y ys =>
      by_cases hxy : x = y
      · rw [shared_prefix_len, if_pos hxy] at h ⊢
        simp only [List.getElem?_cons_succ]
        exact ih ys (by simp only [List.length_cons] at h; omega)
      · rw [shared_prefix_len, if_neg hxy]
        simp [hxy]

/-- C5: the shared-prefix value used by `build_trie` is the minimum of the
pairwise common-prefix lengths against the first key, starting from the first
key's length; `shared_prefix_len` returns the first mismatch index or the
shorter length; and the three concrete examples of the specification hold. -/
theorem claim_C5 :
    (∀ (key : Bytes) (input : List (Bytes × Bytes)),
        shared_nibble_count key input ≤ key.length
      ∧ (∀ p ∈ input.drop 1, shared_nibble_count key input ≤ shared_prefix_len key p.1)
      ∧ (shared_nibble_count key input = key.length
          ∨ ∃ p ∈ input.drop 1,
              shared_nibble_count key input = shared_prefix_len key p.1))
    ∧ (∀ a b : List Nat,
        shared_prefix_len a b ≤ min a.length b.length
      ∧ (∀ j, j < shared_prefix_len a b → a[j]? = b[j]?)
      ∧ (shared_prefix_len a b < min a.length b.length →
          a[shared_prefix_len a b]? ≠ b[shared_prefix_len a b]?))
    ∧ shared_prefix_len [1, 2, 3, 4, 5, 6] [4, 2, 3, 4, 5, 6] = 0
    ∧ shared_prefix_len [1, 2, 3, 3, 5] [1, 2, 3] = 3
    ∧ shared_prefix_len [1, 2, 3, 4, 5, 6] [1, 2, 3, 4, 5, 6] = 6 := by
  refine ⟨?_, ?_, by decide, by decide, by decide⟩
  · intro key input
    refine ⟨shared_nibble_count_le key input, ?_, ?_⟩
    · intro p hp
      exact foldl_min_le_mem (fun q => shared_prefix_len key q.1) (input.drop 1)
        key.length p hp
    · exact foldl_min_attained (fun q => shared_prefix_len key q.1) (input.drop 1)
        key.length
  · intro a b
    exact ⟨shared_prefix_len_le_min a b, shared_prefix_len_agree a b,
      shared_prefix_len_mismatch a b⟩

/-- Witness for C5 at concrete inputs: the strict-agreement clause applied at
index 0 of two sequences sharing one leading element. -/
theorem claim_C5_witness :
    (0 : Nat) < shared_prefix_len [1, 2] [1, 3] ∧ [1, 2][0]? = [1, 3][0]? :=
  ⟨by decide, (claim_C5.2.1 [1, 2] [1, 3]).2.1 0 (by decide)⟩

/-- C4: the empty slice appends exactly one empty-data marker; a single pair
appends exactly one leaf holding the key nibbles from the cursor on and the
value. -/
theorem claim_C4 :
    (∀ cursor : Nat, build_trie [] cursor = [.appendEmptyData])
    ∧ (∀ (k v : Bytes) (cursor : Nat),
        build_trie [(k, v)] cursor = [.appendLeaf (k.drop cursor) v]) :=
  ⟨build_trie_nil, build_trie_single⟩

/-- C3: with at least two pairs, an extension node is emitted exactly when the
shared prefix strictly exceeds the cursor; it carries nibbles
`[cursor, shared)` of the first key and recurses once on the whole slice at
cursor `shared` through the trampoline; otherwise the node is an immediate
branch. -/
theorem claim_C3 (k v : Bytes) (p2 : Bytes × Bytes) (rest : List (Bytes × Bytes))
    (cursor : Nat) :
    (shared_nibble_count k ((k, v) :: p2 :: rest) > cursor →
      build_trie ((k, v) :: p2 :: rest) cursor =
        [.appendExtension
            ((k.drop cursor).take (shared_nibble_count k ((k, v) :: p2 :: rest) - cursor)),
          .appendSubstream
            (build_trie ((k, v) :: p2 :: rest) (shared_nibble_count k ((k, v) :: p2 :: rest)))])
    ∧ ((∃ nibs tl, build_trie ((k, v) :: p2 :: rest) cursor = .appendExtension nibs :: tl)
        ↔ shared_nibble_count k ((k, v) :: p2 :: rest) > cursor) := by
  constructor
  · intro h
    rw [build_trie_ext_case k v p2 rest cursor h]
    simp [build_trie_trampoline]
  · constructor
    · rintro ⟨nibs, tl, heq⟩
      by_contra h
      rw [build_trie_branch_case k v p2 rest cursor h] at heq
      simp at heq
    · intro h
      exact ⟨(k.drop cursor).take (shared_nibble_count k ((k, v) :: p2 :: rest) - cursor),
        [.appendSubstream
          (build_trie ((k, v) :: p2 :: rest) (shared_nibble_count k ((k, v) :: p2 :: rest)))],
        by rw [build_trie_ext_case k v p2 rest cursor h]; simp [build_trie_trampoline]⟩

/-- Witness for C3: two pairs sharing the first nibble, cursor 0, produce an
extension of that nibble and one trampolined child at cursor 1. -/
theorem claim_C3_witness :
    shared_nibble_count [1, 2] [([1, 2], [5]), ([1, 3], [6])] > 0 ∧
    build_trie [([1, 2], [5]), ([1, 3], [6])] 0 =
      [.appendExtension
          (([1, 2].drop 0).take (shared_nibble_count [1, 2] [([1, 2], [5]), ([1, 3], [6])] - 0)),
        .appendSubstream
          (build_trie [([1, 2], [5]), ([1, 3], [6])]
            (shared_nibble_count [1, 2] [([1, 2], [5]), ([1, 3], [6])]))] :=
  ⟨by decide, (claim_C3 [1, 2] [5] ([1, 3], [6]) [] 0).1 (by decide)⟩

theorem take_length_takeWhile {α : Type} (p : α → Bool) :
    ∀ l : List α, l.take ((l.takeWhile p).length) = l.takeWhile p := by
  intro l
  induction l with
  | nil => rfl
  | cons a t ih =>
    by_cases hpa : p a
    · rw [List.takeWhile_cons_of_pos hpa, List.length_cons, List.take_succ_cons, ih]
    · rw [List.takeWhile_cons_of_neg hpa, List.length_nil, List.take_zero]

/-- Branch-slot walk as described by the specification (C2): recurse over the
nibble values 0..15 on the remaining suffix of pairs, taking the run of
consecutive pairs whose nibble at the cursor equals the slot value. -/
def branch_slots_spec (cursor : Nat) (i : Nat) (rem : List (Bytes × Bytes)) : List StreamOp :=
  if _h : 16 ≤ i then []
  else if rem = [] then List.replicate (16 - i) .appendEmptyData
  else
    (if (rem.takeWhile (fun p => p.1.getD cursor 16 == i)).length = 0 then
        [.appendEmptyData]
      else
        [.appendSubstream
          (build_trie (rem.takeWhile (fun p => p.1.getD cursor 16 == i)) (cursor + 1))]) ++
      branch_slots_spec cursor (i + 1)
        (rem.drop (rem.takeWhile (fun p => p.1.getD cursor 16 == i)).length)
termination_by 16 - i
decreasing_by omega

/-- Branch-node emission as described by the specification (C2): slot value
before the 16 child slots comes from skipping a first pair that terminates at
the cursor, and the value slot after them holds its value exactly then. -/
def branch_node_spec (input : List (Bytes × Bytes)) (cursor : Nat) : List StreamOp :=
  .beginBranch ::
    (branch_slots_spec cursor 0
        (input.drop (if (input.headD ([], [])).1.length = cursor then 1 else 0)) ++
      [if (input.headD ([], [])).1.length = cursor then
          .appendValue (input.headD ([], [])).2
        else .appendEmptyData])

theorem branch_slots_eq_spec_aux (input : List (Bytes × Bytes)) (cursor : Nat) :
    ∀ (n i b : Nat), 16 - i ≤ n →
      branch_slots input cursor i b = branch_slots_spec cursor i (input.drop b) := by
  intro n
  induction n with
  | zero =>
    intro i b h
    have h16 : 16 ≤ i := by omega
    rw [branch_slots_eq_done input cursor i b h16, branch_slots_spec, dif_pos h16]
  | succ n ih =>
    intro i b h
    by_cases h16 : 16 ≤ i
    · rw [branch_slots_eq_done input cursor i b h16, branch_slots_spec, dif_pos h16]
    · have h16' : i < 16 := by omega
      rw [branch_slots_spec, dif_neg h16]
      by_cases hb : input.length ≤ b
      · rw [branch_slots_eq_past_end input cursor i b h16' hb]
        rw [if_pos (List.drop_eq_nil_of_le hb)]
      · have hb' : b < input.length := by omega
        have hrem : ¬ input.drop b = [] := by
          intro hh
          rw [List.drop_eq_nil_iff] at hh
          omega
        rw [branch_slots_eq_step input cursor i b h16' hb', if_neg hrem]
        rw [take_length_takeWhile (fun p => p.1.getD cursor 16 == i) (input.drop b)]
        rw [ih (i + 1)
          (b + ((input.drop b).takeWhile (fun p => p.1.getD cursor 16 == i)).length)
          (by omega)]
        rw [List.drop_drop]
        by_cases hc : ((input.drop b).takeWhile (fun p => p.1.getD cursor 16 == i)).length = 0
        · rw [if_pos hc, if_pos hc]
        · rw [if_neg hc, if_neg hc, build_trie_trampoline]

theorem branch_slots_spec_eq (input : List (Bytes × Bytes)) (cursor i b : Nat) :
    branch_slots input cursor i b = branch_slots_spec cursor i (input.drop b) :=
  branch_slots_eq_spec_aux input cursor (16 - i) i b (Nat.le_refl _)

/-- C2: in the multi-pair case with shared prefix not exceeding the cursor,
`build_trie` emits exactly the branch node described by the specification:
`begin` skips a first pair terminating at the cursor, each slot 0..15 takes
the run of consecutive pairs with that nibble at the cursor (empty data for an
empty run, a trampolined child at cursor + 1 otherwise, empty fill once the
input is exhausted), and the value slot holds the first pair's value exactly
when its nibble length equals the cursor. -/
theorem claim_C2 (k v : Bytes) (p2 : Bytes × Bytes) (rest : List (Bytes × Bytes))
    (cursor : Nat) (h : shared_nibble_count k ((k, v) :: p2 :: rest) = cursor) :
    build_trie ((k, v) :: p2 :: rest) cursor
      = branch_node_spec ((k, v) :: p2 :: rest) cursor := by
  have h' : ¬ shared_nibble_count k ((k, v) :: p2 :: rest) > cursor := by omega
  rw [build_trie_branch_case k v p2 rest cursor h', branch_node_spec]
  simp only [List.headD_cons]
  rw [branch_slots_spec_eq]
  by_cases hk : cursor = k.length
  · simp [hk]
  · have hk' : ¬ k.length = cursor := fun hh => hk hh.symm
    simp [hk, hk']

/-- Witness for C2: two single-nibble keys diverging at cursor 0 produce the
specified branch node. -/
theorem claim_C2_witness :
    shared_nibble_count [1] [([1], [7]), ([2], [8])] = 0 ∧
    build_trie [([1], [7]), ([2], [8])] 0 = branch_node_spec [([1], [7]), ([2], [8])] 0 :=
  ⟨by decide, claim_C2 [1] [7] ([2], [8]) [] 0 (by decide)⟩

theorem lt_append_cons (l : List Nat) (a : Nat) (t : List Nat) : l < l ++ a :: t := by
  induction l with
  | nil => exact List.nil_lt_cons a t
  | cons c cs ih => exact List.Lex.cons ih

/-- C10: under the branch preconditions — distinct keys sorted strictly
ascending, all sharing the first `cursor` nibbles — every pair examined by the
slot-counting loop (every pair from `begin` on) still has a nibble at position
`cursor`, so the access `k[cursor]` is in bounds and cannot panic. -/
theorem claim_C10 (k v : Bytes) (ps : List (Bytes × Bytes)) (cursor : Nat)
    (hsort : KeySorted ((k, v) :: ps))
    (hpre : ∀ p ∈ (k, v) :: ps, cursor ≤ p.1.length ∧ p.1.take cursor = k.take cursor) :
    ∀ p ∈ ((k, v) :: ps).drop (if cursor = k.length then 1 else 0),
      cursor < p.1.length := by
  intro p hp
  have hmem : p ∈ (k, v) :: ps := List.mem_of_mem_drop hp
  have hle : cursor ≤ p.1.length := (hpre p hmem).1
  by_contra hcon
  have hlen : p.1.length = cursor := by omega
  have hself : p.1 = k.take cursor := by
    have htk : p.1.take cursor = k.take cursor := (hpre p hmem).2
    have hid : p.1.take cursor = p.1 := by
      rw [← hlen]
      exact List.take_length p.1
    rw [← htk, hid]
  have hkstrict : ∀ q ∈ ps, k < q.1 := fun q hq => (List.pairwise_cons.mp hsort).1 q hq
  by_cases hck : cursor = k.length
  · rw [if_pos hck, List.drop_succ_cons, List.drop_zero] at hp
    have hk_eq : k.take cursor = k := by
      rw [hck]
      exact List.take_length k
    have hpk : p.1 = k := by rw [hself, hk_eq]
    have := hkstrict p hp
    rw [hpk] at this
    exact lt_irrefl k this
  · rw [if_neg hck, List.drop_zero] at hp
    have hcklt : cursor < k.length := by
      have h0 := (hpre (k, v) (List.mem_cons_self _ _)).1
      simp only [] at h0
      rcases Nat.lt_or_ge cursor k.length with h | h
      · exact h
      · exact absurd (Nat.le_antisymm h0 h) hck
  -- p is the head or a later pair; both contradict termination at the cursor
    rcases List.mem_cons.mp hp with rfl | hpps
    · exact hck hlen.symm
    · have h1 : k < p.1 := hkstrict p hpps
      have hdrop_ne : k.drop cursor ≠ [] := by
        intro hh
        rw [List.drop_eq_nil_iff] at hh
        omega
      rcases hd : k.drop cursor with _ | ⟨a, t⟩
      · exact absurd hd hdrop_ne
      · have h2 : p.1 < k := by
          rw [hself]
          conv_rhs => rw [← List.take_append_drop cursor k, hd]
          exact lt_append_cons (k.take cursor) a t
        exact absurd h1 (lt_asymm h2)

/-- Witness for C10: two sorted two-nibble keys sharing one leading nibble at
cursor 1; both remaining pairs have a nibble at position 1. -/
theorem claim_C10_witness :
    KeySorted [([0, 1], [9]), ([0, 2], [8])] ∧
    (∀ p ∈ ([([0, 1], [9]), ([0, 2], [8])] : List (Bytes × Bytes)),
      1 ≤ p.1.length ∧ p.1.take 1 = [0, 1].take 1) ∧
    ∀ p ∈ ([([0, 1], [9]), ([0, 2], [8])] : List (Bytes × Bytes)).drop
        (if 1 = ([0, 1] : Bytes).length then 1 else 0),
      1 < p.1.length :=
  ⟨by decide, by decide,
    claim_C10 [0, 1] [9] [([0, 2], [8])] 1 (by decide) (by decide)⟩

theorem perm_alookup : ∀ {l₁ l₂ : List (Bytes × Bytes)}, l₁.Perm l₂ →
    (l₁.map Prod.fst).Nodup → ∀ k, alookup k l₁ = alookup k l₂ := by
  intro l₁ l₂ h
  induction h with
  | nil => intro _ k; rfl
  | cons x h ih =>
    intro hnodup k
    rw [List.map_cons, List.nodup_cons] at hnodup
    have htail := hnodup.2
    simp only [alookup]
    by_cases hx : x.1 = k
    · rw [if_pos hx, if_pos hx]
    · rw [if_neg hx, if_neg hx]
      exact ih htail k
  | swap x y l =>
    intro hnodup k
    have hxy : y.1 ≠ x.1 := by
      rw [List.map_cons, List.map_cons, List.nodup_cons] at hnodup
      exact fun hh => hnodup.1 (by rw [hh]; exact List.mem_cons_self _ _)
    simp only [alookup]
    by_cases h1 : y.1 = k
    · have h2 : ¬ x.1 = k := fun hh => hxy (h1.trans hh.symm)
      rw [if_pos h1, if_neg h2, if_pos h1]
    · by_cases h2 : x.1 = k
      · rw [if_neg h1, if_pos h2, if_pos h2]
      · rw [if_neg h1, if_neg h2, if_neg h2, if_neg h1]
  | trans h₁ h₂ ih₁ ih₂ =>
    intro hnodup k
    rw [ih₁ hnodup k]
    exact ih₂ (((h₁.map Prod.fst).nodup_iff).mp hnodup) k

/-- C1: the digest is a pure function of the key/value set — for any two
permuted inputs without duplicate keys, `trie_root` produces the identical
result under every hasher/encoder. -/
theorem claim_C1 {D : Type} (hashOut : List StreamOp → D) (input₁ input₂ : List (Bytes × Bytes))
    (hperm : input₁.Perm input₂) (hnodup : (input₁.map Prod.fst).Nodup) :
    trie_root hashOut input₁ = trie_root hashOut input₂ := by
  have hrev : input₁.reverse.Perm input₂.reverse :=
    (input₁.reverse_perm).trans (hperm.trans input₂.reverse_perm.symm)
  have hnodrev : (input₁.reverse.map Prod.fst).Nodup := by
    rw [List.map_reverse]
    exact (List.nodup_reverse).mpr hnodup
  have hnorm : normalize input₁ = normalize input₂ := by
    apply keySorted_ext _ _ (keySorted_normalize input₁) (keySorted_normalize input₂)
    intro k
    rw [alookup_normalize, alookup_normalize]
    exact perm_alookup hrev hnodrev k
  unfold trie_root trie_root_stream
  rw [hnorm]

/-- Witness for C1: two pair lists that are permutations of each other with
distinct keys give the same root stream. -/
theorem claim_C1_witness :
    ([([1], [2]), ([3], [4])] : List (Bytes × Bytes)).Perm [([3], [4]), ([1], [2])] ∧
    (([([1], [2]), ([3], [4])] : List (Bytes × Bytes)).map Prod.fst).Nodup ∧
    trie_root (fun ops => ops) [([1], [2]), ([3], [4])]
      = trie_root (fun ops => ops) [([3], [4]), ([1], [2])] :=
  ⟨by decide, by decide,
    claim_C1 (fun ops => ops) [([1], [2]), ([3], [4])] [([3], [4]), ([1], [2])]
      (by decide) (by decide)⟩

/-- C6: last write wins — an input containing two pairs with an equal key
yields the same digest as the input with the earlier pair removed, keeping the
later occurrence's value, under every hasher/encoder. -/
theorem claim_C6 {D : Type} (hashOut : List StreamOp → D) (xs ys zs : List (Bytes × Bytes))
    (k v1 v2 : Bytes) :
    trie_root hashOut (xs ++ (k, v1) :: ys ++ (k, v2) :: zs)
      = trie_root hashOut (xs ++ ys ++ (k, v2) :: zs) := by
  have hnorm : normalize (xs ++ (k, v1) :: ys ++ (k, v2) :: zs)
      = normalize (xs ++ ys ++ (k, v2) :: zs) := by
    apply keySorted_ext _ _ (keySorted_normalize _) (keySorted_normalize _)
    intro k'
    rw [alookup_normalize, alookup_normalize]
    simp only [List.reverse_append, List.reverse_cons, List.append_assoc,
      alookup_append]
    rcases hz : alookup k' zs.reverse with _ | w
    · by_cases hk : k = k'
      · simp [alookup, hk, Option.orElse]
      · simp [alookup, hk, Option.orElse]
    · simp [Option.orElse]
  unfold trie_root trie_root_stream
  rw [hnorm]

/-- C7: `sec_trie_root` is `trie_root` applied to the input with every key
replaced by its hash before normalization, values untouched. -/
theorem claim_C7 {D : Type} (hashKey : Bytes → Bytes) (hashOut : List StreamOp → D)
    (input : List (Bytes × Bytes)) :
    sec_trie_root hashKey hashOut input
      = trie_root hashOut (input.map (fun p => (hashKey p.1, p.2))) := rfl

/-- Refutation of C9 as stated: with a legitimate (deterministic, fixed-width)
key hasher that happens to fix the single key of this non-empty input, the
secure root stream coincides with the plain root stream, hence the digests
agree for every hasher of the finalized stream. -/
theorem claim_C9_counterexample :
    sec_trie_root_stream (fun kk => [kk.getD 0 0]) [([0], [1])]
      = trie_root_stream [([0], [1])] := rfl

/-- C9 (amended): divergence of the secure root is not unconditional — any
key hash that fixes every key of the input makes `sec_trie_root` equal to
`trie_root`, including on non-empty inputs. -/
theorem claim_C9 {D : Type} (hashKey : Bytes → Bytes) (hashOut : List StreamOp → D)
    (input : List (Bytes × Bytes)) (h : ∀ p ∈ input, hashKey p.1 = p.1) :
    sec_trie_root hashKey hashOut input = trie_root hashOut input := by
  unfold sec_trie_root
  have hmap : input.map (fun p => (hashKey p.1, p.2)) = input := by
    induction input with
    | nil => rfl
    | cons q qs ih =>
      simp only [List.map_cons]
      rw [h q (List.mem_cons_self q qs)]
      rw [ih (fun p hp => h p (List.mem_cons_of_mem q hp))]
  rw [hmap]

/-- Witness for C9 (amended) at a concrete non-empty input whose key is fixed
by the key hasher. -/
theorem claim_C9_witness :
    (∀ p ∈ ([([5], [7])] : List (Bytes × Bytes)), (fun kk => [kk.getD 0 0]) p.1 = p.1) ∧
    sec_trie_root (fun kk => [kk.getD 0 0]) (fun ops => ops) [([5], [7])]
      = trie_root (fun ops => ops) [([5], [7])] :=
  ⟨by decide,
    claim_C9 (fun kk => [kk.getD 0 0]) (fun ops => ops) [([5], [7])] (by decide)⟩

/-- Greatest key length of a pair list (0 when empty). -/
def max_key_len (l : List (Bytes × Bytes)) : Nat :=
  l.foldr (fun p m => max p.1.length m) 0

theorem le_max_key_len (l : List (Bytes × Bytes)) (p : Bytes × Bytes) (hp : p ∈ l) :
    p.1.length ≤ max_key_len l := by
  induction l with
  | nil => cases hp
  | cons q qs ih =>
    rcases List.mem_cons.mp hp with rfl | hp
    · simp [max_key_len]
    · simp only [max_key_len, List.foldr_cons]
      exact Nat.le_trans (ih hp) (Nat.le_max_right _ _)

theorem max_key_len_le (l : List (Bytes × Bytes)) (M : Nat)
    (h : ∀ p ∈ l, p.1.length ≤ M) : max_key_len l ≤ M := by
  induction l with
  | nil => exact Nat.zero_le M
  | cons q qs ih =>
    simp only [max_key_len, List.foldr_cons]
    apply Nat.max_le.mpr
    exact ⟨h q (List.mem_cons_self q qs),
      ih (fun p hp => h p (List.mem_cons_of_mem q hp))⟩

mutual

/-- Depth of the recursion tree of `build_trie`: one level per nested
(trampolined) `build_trie` call. -/
def build_trie_depth : List (Bytes × Bytes) → Nat → Nat
  | [], _ => 0
  | [(_, _)], _ => 0
  | (k, v) :: p2 :: rest, cursor =>
    let shared := shared_nibble_count k ((k, v) :: p2 :: rest)
    if h : shared > cursor then
      build_trie_depth ((k, v) :: p2 :: rest) shared + 1
    else
      branch_slots_depth ((k, v) :: p2 :: rest) cursor 0
        (if cursor = k.length then 1 else 0)
termination_by input cursor => (input.length, (input.headD ([], [])).1.length + 1 - cursor, 18)
decreasing_by
  · apply Prod.Lex.right
    apply Prod.Lex.left
    have hle : shared_nibble_count k ((k, v) :: p2 :: rest) ≤ k.length :=
      shared_nibble_count_le _ _
    simp only [List.headD_cons]
    omega
  · apply Prod.Lex.right
    apply Prod.Lex.right
    omega

/-- Depth contribution of the 16-slot branch loop: maximum over the slots of
one more than each trampolined child's depth. -/
def branch_slots_depth (input : List (Bytes × Bytes)) (cursor i b : Nat) : Nat :=
  if _h16 : 16 ≤ i then 0
  else if _hb : input.length ≤ b then 0
  else
    let cnt := ((input.drop b).takeWhile (fun p => p.1.getD cursor 16 == i)).length
    max
      (if hc : cnt = 0 then 0
        else build_trie_depth ((input.drop b).take cnt) (cursor + 1) + 1)
      (branch_slots_depth input cursor (i + 1) (b + cnt))
termination_by (input.length, (input.headD ([], [])).1.length + 1 - cursor, 16 - i)
decreasing_by
  · rcases run_slice_measure input cursor i b (by omega) (by omega) (by omega) with
      hlt | ⟨heq, hcur⟩
    · exact Prod.Lex.left _ _ hlt
    · rw [heq]
      apply Prod.Lex.right
      apply Prod.Lex.left
      omega
  · apply Prod.Lex.right
    apply Prod.Lex.right
    omega

end

mutual

theorem build_trie_depth_le : ∀ (input : List (Bytes × Bytes)) (cursor : Nat),
    build_trie_depth input cursor ≤ max_key_len input - cursor := by
  intro input cursor
  rcases input with _ | ⟨⟨k, v⟩, _ | ⟨p2, rest⟩⟩
  · simp [build_trie_depth]
  · simp [build_trie_depth]
  · rw [build_trie_depth]
    by_cases h : shared_nibble_count k ((k, v) :: p2 :: rest) > cursor
    · simp only [dif_pos h]
      have hsh := shared_nibble_count_le k ((k, v) :: p2 :: rest)
      have hmax : k.length ≤ max_key_len ((k, v) :: p2 :: rest) :=
        le_max_key_len _ (k, v) (List.mem_cons_self _ _)
      have hrec := build_trie_depth_le ((k, v) :: p2 :: rest)
        (shared_nibble_count k ((k, v) :: p2 :: rest))
      omega
    · simp only [dif_neg h]
      exact branch_slots_depth_le ((k, v) :: p2 :: rest) cursor 0
        (if cursor = k.length then 1 else 0)
termination_by input cursor => (input.length, (input.headD ([], [])).1.length + 1 - cursor, 18)
decreasing_by
  · apply Prod.Lex.right
    apply Prod.Lex.left
    simp only [List.headD_cons]
    omega
  · apply Prod.Lex.right
    apply Prod.Lex.right
    omega

theorem branch_slots_depth_le : ∀ (input : List (Bytes × Bytes)) (cursor i b : Nat),
    branch_slots_depth input cursor i b ≤ max_key_len input - cursor := by
  intro input cursor i b
  rw [branch_slots_depth]
  by_cases h16 : 16 ≤ i
  · simp only [dif_pos h16]
    exact Nat.zero_le _
  · simp only [dif_neg h16]
    by_cases hb : input.length ≤ b
    · simp only [dif_pos hb]
      exact Nat.zero_le _
    · simp only [dif_neg hb]
      apply Nat.max_le.mpr
      constructor
      · by_cases hc : ((input.drop b).takeWhile (fun p => p.1.getD cursor 16 == i)).length = 0
        · simp only [dif_pos hc]
          exact Nat.zero_le _
        · simp only [dif_neg hc]
          have hrec := build_trie_depth_le
            ((input.drop b).take
              ((input.drop b).takeWhile (fun p => p.1.getD cursor 16 == i)).length)
            (cursor + 1)
          have hsub_le : max_key_len
              ((input.drop b).take
                ((input.drop b).takeWhile (fun p => p.1.getD cursor 16 == i)).length)
              ≤ max_key_len input := by
            apply max_key_len_le
            intro p hp
            exact le_max_key_len input p (List.mem_of_mem_drop (List.mem_of_mem_take hp))
          have hcur_lt : cursor < max_key_len
              ((input.drop b).take
                ((input.drop b).takeWhile (fun p => p.1.getD cursor 16 == i)).length) := by
            rw [take_length_takeWhile (fun p => p.1.getD cursor 16 == i) (input.drop b)]
            rcases ht : (input.drop b).takeWhile (fun p => p.1.getD cursor 16 == i) with
              _ | ⟨q, qt⟩
            · rw [ht] at hc
              simp at hc
            · have hq : q ∈ (input.drop b).takeWhile (fun p => p.1.getD cursor 16 == i) := by
                rw [ht]
                exact List.mem_cons_self q qt
              have hqp := List.mem_takeWhile_imp hq
              simp only [beq_iff_eq] at hqp
              have hqlen : cursor < q.1.length := by
                by_contra hcc
                push_neg at hcc
                rw [List.getD_eq_default _ _ hcc] at hqp
                omega
              have : q.1.length ≤ max_key_len
                  ((input.drop b).takeWhile (fun p => p.1.getD cursor 16 == i)) := by
                apply le_max_key_len _ q hq
              omega
          omega
      · exact branch_slots_depth_le input cursor (i + 1)
          (b + ((input.drop b).takeWhile (fun p => p.1.getD cursor 16 == i)).length)
termination_by input cursor i b =>
  (input.length, (input.headD ([], [])).1.length + 1 - cursor, 16 - i)
decreasing_by
  · rcases run_slice_measure input cursor i b (by omega) (by omega) (by omega) with
      hlt | ⟨heq, hcur⟩
    · exact Prod.Lex.left _ _ hlt
    · rw [heq]
      apply Prod.Lex.right
      apply Prod.Lex.left
      omega
  · apply Prod.Lex.right
    apply Prod.Lex.right
    omega

end

theorem toNibbles_length (k : Bytes) : (toNibbles k).length = 2 * k.length := by
  induction k with
  | nil => rfl
  | cons b bs ih =>
    simp only [toNibbles, List.length_cons, ih]
    omega

theorem mem_normalize (input : List (Bytes × Bytes)) (r : Bytes × Bytes)
    (hr : r ∈ normalize input) : r ∈ input := by
  have h : ∀ (l init : List (Bytes × Bytes)) (r : Bytes × Bytes),
      r ∈ l.foldl mapInsert init → r ∈ init ∨ r ∈ l := by
    intro l
    induction l with
    | nil => intro init r h; exact Or.inl h
    | cons q qs ih =>
      intro init r h
      rcases ih (mapInsert init q) r h with h | h
      · rcases mem_mapInsert init q r h with rfl | h
        · exact Or.inr (List.mem_cons_self _ _)
        · exact Or.inl h
      · exact Or.inr (List.mem_cons_of_mem q h)
  rcases h input [] r hr with h | h
  · cases h
  · exact h

/-- C8: the recursion of `build_trie` is well-founded (its depth function is
total), and on the normalized nibble input of `trie_root` the recursion depth
is bounded by twice the longest input key's byte length. -/
theorem claim_C8 (input : List (Bytes × Bytes)) :
    build_trie_depth (toNibblePairs (normalize input)) 0 ≤ 2 * max_key_len input := by
  have h1 := build_trie_depth_le (toNibblePairs (normalize input)) 0
  have h2 : max_key_len (toNibblePairs (normalize input)) ≤ 2 * max_key_len input := by
    apply max_key_len_le
    intro p hp
    rcases List.mem_map.mp hp with ⟨q, hq, rfl⟩
    have hq' : q ∈ input := mem_normalize input q hq
    have := le_max_key_len input q hq'
    simp only [toNibbles_length]
    omega
  omega

end Triehash
